import Mathlib

/-!
Verification development for the support/resistance level-detection pipeline of
`analysis_service/analyzer.py` (class `MarketAnalyzer`).

The embedding follows the Python source line by line.  Python floats are
modelled as exact rationals (`ℚ`); the one genuinely irrational operation of
the source, the square root inside the Bollinger-band standard deviation, is
modelled by the computable `Rat.sqrt` stand-in (see `std20last` below); no
theorem in this file depends on the value of a square root at a non-square.
Exceptions raised by Python code are modelled by `Option`: `none` means the
call raises and the error propagates to the caller.
-/

/-- One OHLCV candle, a row of the DataFrame built by `fetch_klines`
(columns `timestamp, open, high, low, close, volume`). -/
structure Candle where
  ts : ℤ
  opn : ℚ
  high : ℚ
  low : ℚ
  close : ℚ
  volume : ℚ
deriving DecidableEq, Repr

/-- Default candle used for out-of-range `getD` access; all in-range accesses
in this file are guarded by length facts, mirroring `iloc` bounds. -/
def dfltCandle : Candle := ⟨0, 0, 0, 0, 0, 0⟩

/-- Parse a nonempty string of decimal digits (the core of Python `int(...)`);
`none` models the `ValueError` that `int` raises on malformed input. -/
def parseDigits : List Char → Option ℕ
  | [] => none
  | cs =>
    cs.foldl
      (fun acc c =>
        acc.bind fun n => if c.isDigit then some (10 * n + (c.toNat - 48)) else none)
      (some 0)

/-- Python `int(s)` on the value part of a timeframe string: optional sign
followed by digits; `none` models `ValueError`. -/
def pyInt : List Char → Option ℤ
  | '-' :: cs => (parseDigits cs).map fun n => -(n : ℤ)
  | '+' :: cs => (parseDigits cs).map fun n => (n : ℤ)
  | cs => (parseDigits cs).map fun n => (n : ℤ)

/-- The `multipliers` dict of `_timeframe_to_ms`, including the
`.get(unit, 60 * 1000)` default for an unrecognized unit. -/
def msMultiplier (u : Char) : ℤ :=
  if u = 'm' then 60 * 1000
  else if u = 'h' then 60 * 60 * 1000
  else if u = 'd' then 24 * 60 * 60 * 1000
  else if u = 'w' then 7 * 24 * 60 * 60 * 1000
  else 60 * 1000

/-- The `multipliers` dict of `_timeframe_to_hours`, including the
`.get(unit, 1)` default for an unrecognized unit. -/
def hourMultiplier (u : Char) : ℚ :=
  if u = 'm' then 1 / 60
  else if u = 'h' then 1
  else if u = 'd' then 24
  else if u = 'w' then 24 * 7
  else 1

/-- Embedding of `MarketAnalyzer._timeframe_to_ms`: `unit = timeframe[-1]`,
`value = int(timeframe[:-1])`, `value * multipliers.get(unit, 60*1000)`.
`none` models the exceptions (`IndexError` on the empty string, `ValueError`
from `int`). -/
def timeframe_to_ms (tf : String) : Option ℤ :=
  match tf.data.getLast? with
  | none => none
  | some u => (pyInt tf.data.dropLast).map fun v => v * msMultiplier u

/-- Embedding of `MarketAnalyzer._timeframe_to_hours`: `unit = timeframe[-1]`,
`value = int(timeframe[:-1])`, `value * multipliers.get(unit, 1)`. -/
def timeframe_to_hours (tf : String) : Option ℚ :=
  match tf.data.getLast? with
  | none => none
  | some u => (pyInt tf.data.dropLast).map fun v => (v : ℚ) * hourMultiplier u

/-- Python `int()` applied to a float: truncation toward zero. -/
def pytrunc (q : ℚ) : ℤ :=
  if 0 ≤ q then ⌊q⌋ else -⌊-q⌋

/-- The constant `base_windows_hours = [5, 12, 24, 48, 72]`. -/
def base_windows_hours : List ℚ := [5, 12, 24, 48, 72]

/-- The list comprehension `[max(3, int(w / timeframe_hours)) for w in
base_windows_hours]` of `_get_dynamic_windows`, for a given hour value. -/
def windowsFor (th : ℚ) : List ℕ :=
  base_windows_hours.map fun w => (max 3 (pytrunc (w / th))).toNat

/-- The filter `[w for w in windows if 3 <= w <= max_window]` with
`max_window = data_length // 10`. -/
def qualifiedWindows (th : ℚ) (n : ℕ) : List ℕ :=
  (windowsFor th).filter fun w => 3 ≤ w ∧ w ≤ n / 10

/-- Embedding of `MarketAnalyzer._get_dynamic_windows`.  `none` models the exceptions of
`_timeframe_to_hours` plus the `ZeroDivisionError` of `w / timeframe_hours`
when the parsed hour value is zero. -/
def get_dynamic_windows (tf : String) (n : ℕ) : Option (List ℕ) :=
  match timeframe_to_hours tf with
  | none => none
  | some th =>
    if th = 0 then none
    else
      let q := qualifiedWindows th n
      some (if q.isEmpty then [min 5 (n / 20)] else q)

/-! ## Local extrema detection (`_find_local_extrema`, scipy `argrelextrema`) -/

/-- One extremum candidate dict built by `_find_local_extrema`
(`price, volume, index, window, timestamp`). -/
structure Candidate where
  price : ℚ
  volume : ℚ
  index : ℕ
  window : ℕ
  ts : ℤ
deriving DecidableEq, Repr

/-- Default candidate for out-of-range `getD` access. -/
def dfltCandidate : Candidate := ⟨0, 0, 0, 0, 0⟩

/-- Index clipping of scipy's `argrelextrema` boundary mode `'clip'`:
out-of-range neighbor indices are clamped to `[0, n-1]`. -/
def clipIdx (n : ℕ) (i : ℤ) : ℕ := (min (max i 0) ((n : ℤ) - 1)).toNat

/-- The `argrelextrema(data, np.less, order=w)` membership test at index `i`
(`np.greater` when `strictLess = false`): the value at `i` strictly
below/above the value at every clipped neighbor `i ± k`, `1 ≤ k ≤ w`. -/
def isExtremum (data : List ℚ) (strictLess : Bool) (w : ℕ) (i : ℕ) : Bool :=
  (List.range' 1 w).all fun k =>
    let c := data.getD i 0
    let left := data.getD (clipIdx data.length ((i : ℤ) - (k : ℤ))) 0
    let right := data.getD (clipIdx data.length ((i : ℤ) + (k : ℤ))) 0
    if strictLess then decide (c < left) && decide (c < right)
    else decide (left < c) && decide (right < c)

/-- Embedding of `scipy.signal.argrelextrema` over a 1-D array: the (ascending) list of
indices passing `isExtremum`. -/
def argrelextrema (data : List ℚ) (strictLess : Bool) (w : ℕ) : List ℕ :=
  (List.range data.length).filter (isExtremum data strictLess w)

/-- Embedding of `MarketAnalyzer._find_local_extrema`: for each dynamic window, collect a
candidate per extremum of `df['low']` (support) or `df['high']` (resistance).
`none` propagates the exceptions of `_get_dynamic_windows`. -/
def find_local_extrema (df : List Candle) (tf : String) (is_support : Bool) :
    Option (List Candidate) :=
  (get_dynamic_windows tf df.length).map fun windows =>
    windows.foldl
      (fun acc w =>
        let data := if is_support then df.map Candle.low else df.map Candle.high
        acc ++ (argrelextrema data is_support w).map fun idx =>
          let c := df.getD idx dfltCandle
          { price := if is_support then c.low else c.high
            volume := c.volume
            index := idx
            window := w
            ts := c.ts })
      []

/-! ## 1-D DBSCAN clustering (`_cluster_prices_dbscan`)

The source calls `sklearn.cluster.DBSCAN(eps=|current_price|*0.003,
min_samples=2).fit` on the price column.  The executable embedding below
computes, for each price, the position of its maximal gap-≤-eps run in the
sorted price list and uses that run's starting position as the cluster
label (`-1` for a singleton run, sklearn's noise sentinel).  sklearn
numbers clusters `0,1,2,…` in discovery order instead; downstream code
(`_cluster_and_rank_advanced`) consumes only label equality and the `-1`
sentinel, for which the two labelings are interchangeable.  The theorem
for claim C2 below proves that the induced membership partition and noise
set coincide exactly with DBSCAN's density-reachability semantics
(`dbReach` / `dbNoise`, written from the spec's description). -/

/-- Sorted copy of the price list. -/
def sortedPrices (prices : List ℚ) : List ℚ := List.insertionSort (· ≤ ·) prices

/-- Walk left from sorted position `r` while the gap to the previous element
stays ≤ eps; returns the starting position of the gap-free run. -/
def runStart (s : List ℚ) (eps : ℚ) : ℕ → ℕ
  | 0 => 0
  | r + 1 => if s.getD (r + 1) 0 - s.getD r 0 ≤ eps then runStart s eps r else r + 1

/-- Walk right from sorted position `r` while the gap to the next element
stays ≤ eps; returns the final position of the gap-free run. -/
def runEnd (s : List ℚ) (eps : ℚ) (r : ℕ) : ℕ :=
  if h : r + 1 < s.length then
    if s.getD (r + 1) 0 - s.getD r 0 ≤ eps then runEnd s eps (r + 1) else r
  else r
termination_by s.length - r

/-- Embedding of `MarketAnalyzer._cluster_prices_dbscan` (`eps = |current_price| * 0.003`,
`min_samples = 2`); empty input yields the empty label array as in the
source's early return. -/
def cluster_prices_dbscan (prices : List ℚ) (current_price : ℚ) : List ℤ :=
  let eps := |current_price| * 0.003
  let s := sortedPrices prices
  prices.map fun p =>
    let r := s.indexOf p
    if runStart s eps r = runEnd s eps r then -1 else (runStart s eps r : ℤ)

/-! ## Scored levels and `_cluster_and_rank_advanced` -/

/-- A scored level dict.  Python builds these dicts with different key sets
in different places (cluster levels, validated levels, technical levels);
`Option` fields model keys that may be absent. -/
structure Level where
  price : ℚ
  score : ℚ
  touch_count : ℕ
  volume : ℚ
  distance_pct : ℚ
  recency_factor : Option ℚ
  latest_index : Option ℕ
  source : Option String
  original_score : Option ℚ
  touches : Option ℕ
  bounces : Option ℕ
  breaks : Option ℕ
  bounce_rate : Option ℚ
  strength : Option ℚ
deriving DecidableEq, Repr

/-- Descending-score ordering used by every `*.sort(key=lambda x: x['score'],
reverse=True)` call of the source. -/
def scoreGE (a b : Level) : Prop := b.score ≤ a.score

instance : DecidableRel scoreGE := fun a b => inferInstanceAs (Decidable (b.score ≤ a.score))

instance : IsTotal Level scoreGE := ⟨fun a b => le_total b.score a.score⟩

instance : IsTrans Level scoreGE := ⟨fun _ _ _ h1 h2 => le_trans h2 h1⟩

/-- Python's stable `list.sort(key=lambda x: x['score'], reverse=True)`,
modelled by the (equally stable) insertion sort. -/
def sortLevelsDesc (ls : List Level) : List Level := List.insertionSort scoreGE ls

/-- Embedding of `MarketAnalyzer._calculate_time_decay_factor`: linear decay 0.3 → 1.0 of
the position, 1.0 when the series has at most one row. -/
def calculate_time_decay_factor (index : ℕ) (total_length : ℕ) : ℚ :=
  let normalized_position : ℚ :=
    if 1 < total_length then (index : ℚ) / ((total_length : ℚ) - 1) else 1
  0.3 + 0.7 * normalized_position

/-- The five-factor composite score of `_cluster_and_rank_advanced`
(touch count, time-weighted volume, distance with recency, direction,
window diversity). -/
def clusterScore (touch_count : ℕ) (cluster_volume avg_volume distance_pct recency_factor : ℚ)
    (is_support : Bool) (avg_price current_price : ℚ) (unique_windows : ℕ) : ℚ :=
  let touch_score : ℚ := (touch_count : ℚ) * 3
  let volume_score : ℚ := cluster_volume / avg_volume * 2
  let distance_score : ℚ :=
    if 0.01 ≤ distance_pct ∧ distance_pct ≤ 0.10 then 2.5 * recency_factor
    else if distance_pct < 0.01 then 2 * recency_factor
    else max 0.2 (2 - (distance_pct - 0.10) * 5) * recency_factor
  let direction_score : ℚ :=
    if is_support then (if avg_price < current_price then 2 else 0.5)
    else (if current_price < avg_price then 2 else 0.5)
  let window_diversity_score : ℚ := (unique_windows : ℚ) * 0.5
  touch_score + volume_score + distance_score + direction_score + window_diversity_score

/-- The key under which candidate `i` is filed in `clusters_dict`:
noise points get their own key (`f'noise_{i}'`), others their DBSCAN label. -/
def groupKeyOf (labels : List ℤ) (i : ℕ) : ℤ ⊕ ℕ :=
  if labels.getD i 0 = -1 then Sum.inr i else Sum.inl (labels.getD i 0)

/-- The keys of `clusters_dict` in Python dict insertion order
(first occurrence while enumerating candidates). -/
def groupKeysIn (labels : List ℤ) (n : ℕ) : List (ℤ ⊕ ℕ) :=
  (List.range n).foldl
    (fun (acc : List (ℤ ⊕ ℕ)) i =>
      if acc.any fun x => decide (x = groupKeyOf labels i) then acc
      else acc ++ [groupKeyOf labels i]) []

/-- The member list of one `clusters_dict` entry, in candidate order. -/
def groupMembers (cands : List Candidate) (labels : List ℤ) (k : ℤ ⊕ ℕ) : List Candidate :=
  ((List.range cands.length).filter fun i => groupKeyOf labels i = k).map
    fun i => cands.getD i dfltCandidate

/-- Computes `df['volume'].mean()`. -/
def avgVolume (df : List Candle) : ℚ := (df.map Candle.volume).sum / (df.length : ℚ)

/-- The body of the cluster loop of `_cluster_and_rank_advanced`: build the
scored-level dict of one cluster. -/
def clusterLevel (cluster : List Candidate) (df : List Candle) (current_price : ℚ)
    (is_support : Bool) : Level :=
  let avg_price := (cluster.map Candidate.price).sum / (cluster.length : ℚ)
  let touch_count := cluster.length
  let weighted_volume :=
    (cluster.map fun c => c.volume * calculate_time_decay_factor c.index df.length).sum
  let total_weight :=
    (cluster.map fun c => calculate_time_decay_factor c.index df.length).sum
  let cluster_volume := if 0 < total_weight then weighted_volume / total_weight else avgVolume df
  let distance_pct := |avg_price - current_price| / |current_price|
  let latest_index := (cluster.map Candidate.index).foldl max 0
  let recency_factor := calculate_time_decay_factor latest_index df.length
  let unique_windows := (cluster.map Candidate.window).dedup.length
  { price := avg_price
    score := clusterScore touch_count cluster_volume (avgVolume df) distance_pct recency_factor
      is_support avg_price current_price unique_windows
    touch_count := touch_count
    volume := cluster_volume
    distance_pct := distance_pct * 100
    recency_factor := some recency_factor
    latest_index := some latest_index
    source := none, original_score := none, touches := none, bounces := none, breaks := none
    bounce_rate := none, strength := none }

/-- Embedding of `MarketAnalyzer._cluster_and_rank_advanced`: DBSCAN-group the candidates,
score each group, sort descending by score. -/
def cluster_and_rank_advanced (candidates : List Candidate) (df : List Candle)
    (current_price : ℚ) (is_support : Bool) : List Level :=
  if candidates.isEmpty then []
  else
    let prices := candidates.map Candidate.price
    let labels := cluster_prices_dbscan prices current_price
    let keys := groupKeysIn labels candidates.length
    sortLevelsDesc
      (keys.map fun k => clusterLevel (groupMembers candidates labels k) df current_price is_support)

/-! ## Level validation (`_validate_levels`) -/

/-- One iteration of the candle scan of `_validate_levels`, accumulating
`(touches, bounces, breaks)`. -/
def touchStep (df : List Candle) (is_support : Bool) (level_price tolerance : ℚ)
    (acc : ℕ × ℕ × ℕ) (i : ℕ) : ℕ × ℕ × ℕ :=
  let c := df.getD i dfltCandle
  let nxt := df.getD (i + 1) dfltCandle
  if is_support then
    if |c.low - level_price| ≤ tolerance then
      (acc.1 + 1,
       acc.2.1 + (if c.close < nxt.close then 1 else 0),
       acc.2.2 + (if nxt.low < level_price - tolerance then 1 else 0))
    else acc
  else
    if |c.high - level_price| ≤ tolerance then
      (acc.1 + 1,
       acc.2.1 + (if nxt.close < c.close then 1 else 0),
       acc.2.2 + (if level_price + tolerance < nxt.high then 1 else 0))
    else acc

/-- The `(touches, bounces, breaks)` counts of one level over
`for i in range(len(df) - 1)`, with the 1% tolerance band. -/
def touchStats (df : List Candle) (is_support : Bool) (level_price : ℚ) : ℕ × ℕ × ℕ :=
  (List.range (df.length - 1)).foldl
    (touchStep df is_support level_price (|level_price| * 0.01)) (0, 0, 0)

/-- Computes `bounce_rate = bounces / touches if touches > 0 else 0`. -/
def bounceRateOf (df : List Candle) (is_support : Bool) (level_price : ℚ) : ℚ :=
  let st := touchStats df is_support level_price
  if 0 < st.1 then (st.2.1 : ℚ) / (st.1 : ℚ) else 0

/-- Computes `break_rate = breaks / touches if touches > 0 else 0`. -/
def breakRateOf (df : List Candle) (is_support : Bool) (level_price : ℚ) : ℚ :=
  let st := touchStats df is_support level_price
  if 0 < st.1 then (st.2.2 : ℚ) / (st.1 : ℚ) else 0

/-- Computes `strength = bounce_rate - break_rate`. -/
def strengthOf (df : List Candle) (is_support : Bool) (level_price : ℚ) : ℚ :=
  bounceRateOf df is_support level_price - breakRateOf df is_support level_price

/-- The per-level update of `_validate_levels`: record the original score,
add the strength bonus, attach the diagnostic fields (the source stores
`bounce_rate` and `strength` but not `break_rate`). -/
def validateLevel (df : List Candle) (is_support : Bool) (lv : Level) : Level :=
  let st := touchStats df is_support lv.price
  let strength := strengthOf df is_support lv.price
  { lv with
    original_score := some lv.score
    score := lv.score + strength * 2
    touches := some st.1
    bounces := some st.2.1
    breaks := some st.2.2
    bounce_rate := some (bounceRateOf df is_support lv.price)
    strength := some strength }

/-- Embedding of `MarketAnalyzer._validate_levels`: validate every level in order, then
re-sort by the amended score. -/
def validate_levels (levels : List Level) (df : List Candle) (is_support : Bool) : List Level :=
  sortLevelsDesc (levels.foldl (fun acc lv => acc ++ [validateLevel df is_support lv]) [])

/-! ## Technical levels (`_add_technical_levels`) -/

/-- The `is_duplicate` helper (default `threshold = 0.005`): an existing level
of the same side lies at relative distance `< 0.5%` of the *new* price. -/
def isDuplicateLevel (price : ℚ) (existing : List Level) : Bool :=
  existing.any fun lv => decide (|price - lv.price| / |price| < 0.005)

/-- A technical-indicator level dict (`price, score, source, touch_count,
volume, distance_pct`). -/
def mkTechLevel (price score : ℚ) (name : String) (current_price : ℚ) : Level :=
  { price := price
    score := score
    source := some name
    touch_count := 1
    volume := 0
    distance_pct := |price - current_price| / |current_price| * 100
    recency_factor := none, latest_index := none, original_score := none
    touches := none, bounces := none, breaks := none, bounce_rate := none, strength := none }

/-- The last entry of the 20-period rolling mean of close
(`df_copy['MA20'].iloc[-1]`; the source computes the whole rolling series
and reads only its last entry). -/
def ma20last (df : List Candle) : ℚ :=
  ((df.map Candle.close).drop (df.length - 20)).sum / 20

/-- The last entry of the 20-period rolling standard deviation of close
(`df_copy['std20'].iloc[-1]`; pandas sample deviation, denominator 19).
`Rat.sqrt` is the computable stand-in for the floating-point square root:
exact whenever the variance is a perfect rational square (in particular 0
on a flat window); no theorem of this file depends on its value elsewhere. -/
def std20last (df : List Candle) : ℚ :=
  let closes := (df.map Candle.close).drop (df.length - 20)
  let ma := closes.sum / 20
  Rat.sqrt ((closes.map fun x => (x - ma) ^ 2).sum / 19)

/-- The Bollinger-band half of `_add_technical_levels`: append the upper band
to resistances when above current price, the lower band to supports when
below, after the duplicate test, only when at least 20 candles exist. -/
def addBollinger (df : List Candle) (supports resistances : List Level)
    (current_price : ℚ) : List Level × List Level :=
  if 20 ≤ df.length then
    let upper := ma20last df + 2 * std20last df
    let lower := ma20last df - 2 * std20last df
    let resistances1 :=
      if current_price < upper ∧ isDuplicateLevel upper resistances = false then
        resistances ++ [mkTechLevel upper 5 "Bollinger_Upper" current_price]
      else resistances
    let supports1 :=
      if lower < current_price ∧ isDuplicateLevel lower supports = false then
        supports ++ [mkTechLevel lower 5 "Bollinger_Lower" current_price]
      else supports
    (supports1, resistances1)
  else (supports, resistances)

/-- The `fib_ratios` dict of `_add_technical_levels`, in insertion order. -/
def fib_ratios : List (String × ℚ) :=
  [("Fib_23.6", 0.236), ("Fib_38.2", 0.382), ("Fib_50.0", 0.500),
   ("Fib_61.8", 0.618), ("Fib_78.6", 0.786)]

/-- Computes `df['high'].max()` (0 on the empty frame, unreachable in the pipeline). -/
def dfHighMax (df : List Candle) : ℚ :=
  match df.map Candle.high with
  | [] => 0
  | x :: xs => xs.foldl max x

/-- Computes `df['low'].min()` (0 on the empty frame, unreachable in the pipeline). -/
def dfLowMin (df : List Candle) : ℚ :=
  match df.map Candle.low with
  | [] => 0
  | x :: xs => xs.foldl min x

/-- One iteration of the Fibonacci loop of `_add_technical_levels`: classify
`fib_price = low + diff * ratio` as support when strictly below
`current_price * 0.99`, as resistance when strictly above
`current_price * 1.01`, skipping duplicates; otherwise leave both lists
unchanged. -/
def fibStep (low diff current_price : ℚ) (acc : List Level × List Level)
    (nr : String × ℚ) : List Level × List Level :=
  let fib_price := low + diff * nr.2
  if fib_price < current_price * 0.99 then
    if isDuplicateLevel fib_price acc.1 = false then
      (acc.1 ++ [mkTechLevel fib_price 4 nr.1 current_price], acc.2)
    else acc
  else if current_price * 1.01 < fib_price then
    if isDuplicateLevel fib_price acc.2 = false then
      (acc.1, acc.2 ++ [mkTechLevel fib_price 4 nr.1 current_price])
    else acc
  else acc

/-- The Fibonacci-retracement half of `_add_technical_levels`, folded over
the five ratios in dict order; the incoming lists already contain the
validated empirical levels and any Bollinger additions. -/
def addFibLevels (df : List Candle) (supports resistances : List Level)
    (current_price : ℚ) : List Level × List Level :=
  fib_ratios.foldl (fibStep (dfLowMin df) (dfHighMax df - dfLowMin df) current_price)
    (supports, resistances)

/-- Embedding of `MarketAnalyzer._add_technical_levels`: Bollinger additions, Fibonacci
additions, then each side re-sorted descending by score. -/
def add_technical_levels (df : List Candle) (supports resistances : List Level)
    (current_price : ℚ) : List Level × List Level :=
  let b := addBollinger df supports resistances current_price
  let f := addFibLevels df b.1 b.2 current_price
  (sortLevelsDesc f.1, sortLevelsDesc f.2)

/-! ## The pipeline (`analyze_support_resistance`) -/

/-- The constant `self.top_n_levels` of `MarketAnalyzer.__init__`. -/
def top_n_levels : ℕ := 5

/-- Computes `current_price = float(df['close'].iloc[-1])` (the pipeline reaches this
only for nonempty frames). -/
def currentPrice (df : List Candle) : ℚ := (df.getLast?.getD dfltCandle).close

/-- Steps 1–4 of `analyze_support_resistance` for a frame that passed the
50-candle gate: extrema detection on both sides, clustering and scoring,
validation, technical augmentation.  `none` propagates timeframe errors. -/
def levelPipeline (df : List Candle) (tf : String) : Option (List Level × List Level) :=
  match find_local_extrema df tf true, find_local_extrema df tf false with
  | some support_candidates, some resistance_candidates =>
    let cp := currentPrice df
    let top_supports := cluster_and_rank_advanced support_candidates df cp true
    let top_resistances := cluster_and_rank_advanced resistance_candidates df cp false
    let validated_supports := validate_levels top_supports df true
    let validated_resistances := validate_levels top_resistances df false
    some (add_technical_levels df validated_supports validated_resistances cp)
  | _, _ => none

/-- Embedding of `MarketAnalyzer.analyze_support_resistance`: below 50 candles return
`([], [])`; otherwise run the pipeline and extract the prices of the top
5 levels of each side. -/
def analyze_support_resistance (df : List Candle) (tf : String) :
    Option (List ℚ × List ℚ) :=
  if df.length < 50 then some ([], [])
  else
    match levelPipeline df tf with
    | none => none
    | some (supports_with_tech, resistances_with_tech) =>
      some ((supports_with_tech.take top_n_levels).map Level.price,
            (resistances_with_tech.take top_n_levels).map Level.price)

/-! ## Theorems -/

/-- Floor of a rational known to equal an integer. -/
theorem intFloor_eq_of_eq_intCast {q : ℚ} {z : ℤ} (h : q = (z : ℚ)) : ⌊q⌋ = z := by
  rw [h, Int.floor_intCast]

/-- Value of `pytrunc` at a rational known to equal a nonnegative integer. -/
theorem pytrunc_eq_of_eq_intCast {q : ℚ} {z : ℤ} (h : q = (z : ℚ)) (hz : 0 ≤ z) :
    pytrunc q = z := by
  rw [pytrunc, if_pos (h ▸ (by exact_mod_cast hz : (0 : ℚ) ≤ (z : ℚ))),
    intFloor_eq_of_eq_intCast h]

/-- C1: for every candle series with fewer than 50 candles and any timeframe,
`analyze_support_resistance` returns `([], [])` without raising an error
(the early `len(df) < 50` return precedes all timeframe parsing). -/
theorem analyze_short_series_empty (df : List Candle) (tf : String)
    (h : df.length < 50) : analyze_support_resistance df tf = some ([], []) := by
  simp [analyze_support_resistance, h]

theorem analyze_short_series_empty_witness :
    ([] : List Candle).length < 50 ∧
      analyze_support_resistance [] "1h" = some ([], []) :=
  ⟨by decide, analyze_short_series_empty [] "1h" (by decide)⟩

/-- C5: for every series length and recognized timeframe, either every
returned window `w` satisfies `3 ≤ w ≤ n / 10` (and the result is exactly the
qualified-window list), or no window derived from the base spans qualifies and
the result is the single fallback window `min 5 (n / 20)`. -/
theorem dynamic_windows_bounds (tf : String) (n : ℕ) (th : ℚ) (ws : List ℕ)
    (hth : timeframe_to_hours tf = some th)
    (hw : get_dynamic_windows tf n = some ws) :
    (qualifiedWindows th n ≠ [] →
      ws = qualifiedWindows th n ∧ ∀ w ∈ ws, 3 ≤ w ∧ w ≤ n / 10) ∧
    (qualifiedWindows th n = [] → ws = [min 5 (n / 20)]) := by
  rw [get_dynamic_windows, hth] at hw
  by_cases h0 : th = 0
  · simp [h0] at hw
  · simp only [h0, if_false] at hw
    constructor
    · intro hne
      have hq : ¬ (qualifiedWindows th n).isEmpty := by
        simpa [List.isEmpty_iff] using hne
      rw [if_neg hq] at hw
      obtain rfl : qualifiedWindows th n = ws := Option.some.inj hw
      refine ⟨rfl, fun w hwmem => ?_⟩
      have := List.mem_filter.mp hwmem
      simpa using this.2
    · intro he
      have hq : (qualifiedWindows th n).isEmpty := by simp [List.isEmpty_iff, he]
      rw [if_pos hq] at hw
      exact (Option.some.inj hw).symm

theorem dynamic_windows_bounds_witness :
    timeframe_to_hours "1m" = some (1 / 60) ∧
      get_dynamic_windows "1m" 100 = some [5] ∧
      ((qualifiedWindows (1 / 60) 100 ≠ [] →
          [5] = qualifiedWindows (1 / 60) 100 ∧ ∀ w ∈ [5], 3 ≤ w ∧ w ≤ 100 / 10) ∧
        (qualifiedWindows (1 / 60) 100 = [] → [5] = [min 5 (100 / 20)])) := by
  have h1 : "1m".data.getLast? = some 'm' := by decide
  have h2 : pyInt ['1'] = some 1 := by decide
  have hth : timeframe_to_hours "1m" = some (1 / 60) := by
    simp +decide [timeframe_to_hours, h1, h2, hourMultiplier]
  have hwf : windowsFor (1 / 60) = [300, 720, 1440, 2880, 4320] := by
    have f1 := pytrunc_eq_of_eq_intCast
      (show (5 : ℚ) / (1 / 60) = ((300 : ℤ) : ℚ) by norm_num) (by norm_num)
    have f2 := pytrunc_eq_of_eq_intCast
      (show (12 : ℚ) / (1 / 60) = ((720 : ℤ) : ℚ) by norm_num) (by norm_num)
    have f3 := pytrunc_eq_of_eq_intCast
      (show (24 : ℚ) / (1 / 60) = ((1440 : ℤ) : ℚ) by norm_num) (by norm_num)
    have f4 := pytrunc_eq_of_eq_intCast
      (show (48 : ℚ) / (1 / 60) = ((2880 : ℤ) : ℚ) by norm_num) (by norm_num)
    have f5 := pytrunc_eq_of_eq_intCast
      (show (72 : ℚ) / (1 / 60) = ((4320 : ℤ) : ℚ) by norm_num) (by norm_num)
    simp only [windowsFor, base_windows_hours, List.map, f1, f2, f3, f4, f5]
    decide
  have hqw : qualifiedWindows (1 / 60) 100 = [] := by
    rw [qualifiedWindows, hwf]; decide
  have hw : get_dynamic_windows "1m" 100 = some [5] := by
    rw [get_dynamic_windows, hth]
    norm_num [hqw]
  exact ⟨hth, hw, dynamic_windows_bounds "1m" 100 (1 / 60) [5] hth hw⟩

/-- C6 counterexample: for the timeframe string `"5x"`, whose unit character
`'x'` is none of `m`, `h`, `d`, `w`, both conversions succeed instead of
failing: `_timeframe_to_hours` silently substitutes the default multiplier 1
(returning 5 hours) and `_timeframe_to_ms` the default 60000 (returning
300000 ms).  No error is raised, refuting the claimed hard failure. -/
theorem timeframe_unknown_unit_no_failure_cex :
    timeframe_to_hours "5x" = some 5 ∧ timeframe_to_ms "5x" = some 300000 ∧
      (['m', 'h', 'd', 'w'].contains 'x') = false := by
  have h1 : "5x".data.getLast? = some 'x' := by decide
  have h2 : pyInt ['5'] = some 5 := by decide
  refine ⟨?_, ?_, by decide⟩
  · simp +decide [timeframe_to_hours, h1, h2, hourMultiplier]
  · simp +decide [timeframe_to_ms, h1, h2, msMultiplier]

/-- C6 amended: for every timeframe string whose unit character is not one of
`m`, `h`, `d`, `w` but whose value part parses as an integer, the conversions
do not fail; they silently substitute the default duration (`multipliers
.get(unit, default)`): the hours conversion returns `value * 1` and the
milliseconds conversion `value * 60000`. -/
theorem timeframe_unknown_unit_defaults (tf : String) (u : Char) (v : ℤ)
    (hu : tf.data.getLast? = some u)
    (hm : (['m', 'h', 'd', 'w'].contains u) = false)
    (hv : pyInt tf.data.dropLast = some v) :
    timeframe_to_hours tf = some (v : ℚ) ∧ timeframe_to_ms tf = some (v * 60000) := by
  simp only [List.contains, List.elem_eq_mem, decide_eq_false_iff_not, List.mem_cons,
    List.mem_singleton, not_or] at hm
  obtain ⟨hm1, hm2, hm3, hm4⟩ := hm
  constructor
  · rw [timeframe_to_hours, hu, hv]
    simp [hourMultiplier, hm1, hm2, hm3, hm4]
  · rw [timeframe_to_ms, hu, hv]
    simp [msMultiplier, hm1, hm2, hm3, hm4]

theorem timeframe_unknown_unit_defaults_witness :
    "7q".data.getLast? = some 'q' ∧ (['m', 'h', 'd', 'w'].contains 'q') = false ∧
      pyInt "7q".data.dropLast = some 7 ∧
      (timeframe_to_hours "7q" = some ((7 : ℤ) : ℚ) ∧
        timeframe_to_ms "7q" = some (7 * 60000)) :=
  ⟨by decide, by decide, by decide,
    timeframe_unknown_unit_defaults "7q" 'q' 7 (by decide) (by decide) (by decide)⟩

/-- The appending loop `for lv in levels: validated.append(...)` as a map. -/
theorem foldl_append_singleton {α β : Type} (f : α → β) (l : List α) (acc : List β) :
    l.foldl (fun a x => a ++ [f x]) acc = acc ++ l.map f := by
  induction l generalizing acc with
  | nil => simp
  | cons x xs ih => simp [ih]

/-- C3: `_validate_levels` emits exactly the per-level amendments, each output
score is the pre-validation score plus `strength * 2.0`, the pre-validation
score is preserved in `original_score`, and the returned list is sorted
descending by the amended score. -/
theorem validate_levels_score_amendment (levels : List Level) (df : List Candle)
    (is_support : Bool) :
    validate_levels levels df is_support
        = sortLevelsDesc (levels.map (validateLevel df is_support))
      ∧ (∀ lv : Level,
          (validateLevel df is_support lv).score
              = lv.score + strengthOf df is_support lv.price * 2
            ∧ (validateLevel df is_support lv).original_score = some lv.score)
      ∧ List.Sorted scoreGE (validate_levels levels df is_support) := by
  refine ⟨?_, fun lv => ⟨rfl, rfl⟩, ?_⟩
  · rw [validate_levels, foldl_append_singleton]
    simp
  · rw [validate_levels]
    exact List.sorted_insertionSort scoreGE _

/-- Invariant of the candle scan of `_validate_levels`: bounces and breaks
never exceed touches (each is incremented at most once per touch). -/
theorem touchStep_fold_le (df : List Candle) (is_support : Bool) (p tol : ℚ)
    (idxs : List ℕ) (acc : ℕ × ℕ × ℕ) (hb : acc.2.1 ≤ acc.1) (hk : acc.2.2 ≤ acc.1) :
    (idxs.foldl (touchStep df is_support p tol) acc).2.1
        ≤ (idxs.foldl (touchStep df is_support p tol) acc).1
      ∧ (idxs.foldl (touchStep df is_support p tol) acc).2.2
        ≤ (idxs.foldl (touchStep df is_support p tol) acc).1 := by
  induction idxs generalizing acc with
  | nil => exact ⟨hb, hk⟩
  | cons i rest ih =>
    refine ih (touchStep df is_support p tol acc i) ?_ ?_ <;>
      · rw [touchStep]
        split_ifs <;> (try dsimp only) <;> omega

/-- Both `bounces ≤ touches` and `breaks ≤ touches` hold for the final counts. -/
theorem touchStats_le (df : List Candle) (is_support : Bool) (p : ℚ) :
    (touchStats df is_support p).2.1 ≤ (touchStats df is_support p).1
      ∧ (touchStats df is_support p).2.2 ≤ (touchStats df is_support p).1 :=
  touchStep_fold_le df is_support p (|p| * 0.01) (List.range (df.length - 1)) (0, 0, 0)
    (le_refl 0) (le_refl 0)

/-- C4: bounce and break rates always lie in `[0, 1]`, the strength in
`[-1, 1]`, and a level with zero touches gets both rates 0 (the guards
`if touches > 0` prevent any division by zero). -/
theorem validation_rates_bounded (df : List Candle) (is_support : Bool) (p : ℚ) :
    0 ≤ bounceRateOf df is_support p ∧ bounceRateOf df is_support p ≤ 1
      ∧ 0 ≤ breakRateOf df is_support p ∧ breakRateOf df is_support p ≤ 1
      ∧ -1 ≤ strengthOf df is_support p ∧ strengthOf df is_support p ≤ 1
      ∧ ((touchStats df is_support p).1 = 0 →
          bounceRateOf df is_support p = 0 ∧ breakRateOf df is_support p = 0) := by
  obtain ⟨hb, hk⟩ := touchStats_le df is_support p
  have main : 0 ≤ bounceRateOf df is_support p ∧ bounceRateOf df is_support p ≤ 1
      ∧ 0 ≤ breakRateOf df is_support p ∧ breakRateOf df is_support p ≤ 1 := by
    rw [bounceRateOf, breakRateOf]
    by_cases ht : 0 < (touchStats df is_support p).1
    · have htq : (0 : ℚ) < ((touchStats df is_support p).1 : ℚ) := by exact_mod_cast ht
      refine ⟨?_, ?_, ?_, ?_⟩ <;> rw [if_pos ht]
      · positivity
      · exact (div_le_one htq).mpr (by exact_mod_cast hb)
      · positivity
      · exact (div_le_one htq).mpr (by exact_mod_cast hk)
    · simp [if_neg ht]
  obtain ⟨h1, h2, h3, h4⟩ := main
  refine ⟨h1, h2, h3, h4, ?_, ?_, fun h0 => ?_⟩
  · rw [strengthOf]; linarith
  · rw [strengthOf]; linarith
  · have ht : ¬ 0 < (touchStats df is_support p).1 := by omega
    rw [bounceRateOf, breakRateOf]
    simp [if_neg ht]

theorem validation_rates_bounded_witness :
    0 ≤ bounceRateOf [] true 0 ∧ bounceRateOf [] true 0 ≤ 1
      ∧ 0 ≤ breakRateOf [] true 0 ∧ breakRateOf [] true 0 ≤ 1
      ∧ -1 ≤ strengthOf [] true 0 ∧ strengthOf [] true 0 ≤ 1
      ∧ ((touchStats [] true 0).1 = 0 →
          bounceRateOf [] true 0 = 0 ∧ breakRateOf [] true 0 = 0) :=
  validation_rates_bounded [] true 0

/-- C9: the composite cluster score is monotonic in the member count: with
the weighted volume, series volume, distance, recency factor, direction
inputs and scale-diversity count all equal, more touches score at least
as high (`touch_score = touch_count * 3.0` is the only term that moves). -/
theorem cluster_score_touch_monotonic (t1 t2 : ℕ) (cv av dp rf : ℚ) (s : Bool)
    (ap cp : ℚ) (uw : ℕ) (h : t2 ≤ t1) :
    clusterScore t2 cv av dp rf s ap cp uw ≤ clusterScore t1 cv av dp rf s ap cp uw := by
  have hc : (t2 : ℚ) ≤ (t1 : ℚ) := by exact_mod_cast h
  unfold clusterScore
  dsimp only
  linarith

theorem cluster_score_touch_monotonic_witness :
    (2 : ℕ) ≤ 3 ∧
      clusterScore 2 1 1 1 1 true 1 2 1 ≤ clusterScore 3 1 1 1 1 true 1 2 1 :=
  ⟨by decide, cluster_score_touch_monotonic 3 2 1 1 1 1 true 1 2 1 (by decide)⟩

/-- C10: `_validate_levels` neither adds nor drops levels — its output is a
permutation (the descending re-sort) of the pointwise-validated input, of
equal length — and the per-level update changes only the score while
preserving `price` and every other pre-existing field, adding the
diagnostic fields (`original_score`, `touches`, `bounces`, `breaks`,
`bounce_rate`, `strength`). -/
theorem validate_levels_frame_effect (levels : List Level) (df : List Candle)
    (is_support : Bool) :
    (validate_levels levels df is_support).length = levels.length
      ∧ (validate_levels levels df is_support).Perm
          (levels.map (validateLevel df is_support))
      ∧ ∀ lv : Level,
          (validateLevel df is_support lv).price = lv.price
            ∧ (validateLevel df is_support lv).touch_count = lv.touch_count
            ∧ (validateLevel df is_support lv).volume = lv.volume
            ∧ (validateLevel df is_support lv).distance_pct = lv.distance_pct
            ∧ (validateLevel df is_support lv).recency_factor = lv.recency_factor
            ∧ (validateLevel df is_support lv).latest_index = lv.latest_index
            ∧ (validateLevel df is_support lv).source = lv.source
            ∧ (validateLevel df is_support lv).original_score = some lv.score
            ∧ (validateLevel df is_support lv).touches
                = some (touchStats df is_support lv.price).1
            ∧ (validateLevel df is_support lv).bounces
                = some (touchStats df is_support lv.price).2.1
            ∧ (validateLevel df is_support lv).breaks
                = some (touchStats df is_support lv.price).2.2
            ∧ (validateLevel df is_support lv).bounce_rate
                = some (bounceRateOf df is_support lv.price)
            ∧ (validateLevel df is_support lv).strength
                = some (strengthOf df is_support lv.price) := by
  have hperm : (validate_levels levels df is_support).Perm
      (levels.map (validateLevel df is_support)) := by
    rw [validate_levels, foldl_append_singleton, List.nil_append]
    exact List.perm_insertionSort scoreGE _
  refine ⟨by rw [hperm.length_eq, List.length_map], hperm, fun lv => ?_⟩
  exact ⟨rfl, rfl, rfl, rfl, rfl, rfl, rfl, rfl, rfl, rfl, rfl, rfl, rfl⟩

/-- The Fibonacci loop state after processing a prefix of the ratio list
(`supports`/`resistances` as they stand when the next ratio is examined). -/
def fibFold (df : List Candle) (supports resistances : List Level) (current_price : ℚ)
    (ratios : List (String × ℚ)) : List Level × List Level :=
  ratios.foldl (fibStep (dfLowMin df) (dfHighMax df - dfLowMin df) current_price)
    (supports, resistances)

theorem addFibLevels_eq_fibFold (df : List Candle) (supports resistances : List Level)
    (current_price : ℚ) :
    addFibLevels df supports resistances current_price
      = fibFold df supports resistances current_price fib_ratios := rfl

/-- The Fibonacci loop only appends to the support list. -/
theorem fibStep_mem_left {low diff cp : ℚ} {acc : List Level × List Level}
    {nr : String × ℚ} {x : Level} (hx : x ∈ acc.1) : x ∈ (fibStep low diff cp acc nr).1 := by
  rw [fibStep]
  split_ifs <;> simp [hx]

/-- The Fibonacci loop only appends to the resistance list. -/
theorem fibStep_mem_right {low diff cp : ℚ} {acc : List Level × List Level}
    {nr : String × ℚ} {x : Level} (hx : x ∈ acc.2) : x ∈ (fibStep low diff cp acc nr).2 := by
  rw [fibStep]
  split_ifs <;> simp [hx]

theorem foldl_fibStep_mem_left {low diff cp : ℚ} {x : Level}
    (ratios : List (String × ℚ)) (acc : List Level × List Level) (hx : x ∈ acc.1) :
    x ∈ (ratios.foldl (fibStep low diff cp) acc).1 := by
  induction ratios generalizing acc with
  | nil => exact hx
  | cons nr rest ih => exact ih _ (fibStep_mem_left hx)

theorem foldl_fibStep_mem_right {low diff cp : ℚ} {x : Level}
    (ratios : List (String × ℚ)) (acc : List Level × List Level) (hx : x ∈ acc.2) :
    x ∈ (ratios.foldl (fibStep low diff cp) acc).2 := by
  induction ratios generalizing acc with
  | nil => exact hx
  | cons nr rest ih => exact ih _ (fibStep_mem_right hx)

/-- C7 amended: a retracement level `low + (high - low) * ratio` is appended
as a support with fixed score 4.0 whenever it is *strictly* below
`current_price * 0.99`, and as a resistance whenever it is not below
`current_price * 0.99` but *strictly* above `current_price * 1.01`
(the source's `if`/`elif` order), unless an existing level of the same
side — at the moment that ratio is processed — lies at relative distance
strictly less than 0.5% of the new price. -/
theorem fib_levels_appended (df : List Candle) (s0 r0 : List Level) (cp : ℚ)
    (pre post : List (String × ℚ)) (name : String) (ratio : ℚ)
    (hsplit : fib_ratios = pre ++ (name, ratio) :: post) :
    (dfLowMin df + (dfHighMax df - dfLowMin df) * ratio < cp * 0.99 →
      isDuplicateLevel (dfLowMin df + (dfHighMax df - dfLowMin df) * ratio)
          (fibFold df s0 r0 cp pre).1 = false →
      mkTechLevel (dfLowMin df + (dfHighMax df - dfLowMin df) * ratio) 4 name cp
        ∈ (addFibLevels df s0 r0 cp).1)
    ∧ (¬ (dfLowMin df + (dfHighMax df - dfLowMin df) * ratio < cp * 0.99) →
      cp * 1.01 < dfLowMin df + (dfHighMax df - dfLowMin df) * ratio →
      isDuplicateLevel (dfLowMin df + (dfHighMax df - dfLowMin df) * ratio)
          (fibFold df s0 r0 cp pre).2 = false →
      mkTechLevel (dfLowMin df + (dfHighMax df - dfLowMin df) * ratio) 4 name cp
        ∈ (addFibLevels df s0 r0 cp).2) := by
  rw [addFibLevels_eq_fibFold, hsplit]
  simp only [fibFold]
  rw [List.foldl_append, List.foldl_cons]
  constructor
  · intro hlt hdup
    apply foldl_fibStep_mem_left
    rw [fibStep]
    dsimp only at hdup ⊢
    rw [if_pos hlt, if_pos hdup]
    simp
  · intro hge hgt hdup
    apply foldl_fibStep_mem_right
    rw [fibStep]
    dsimp only at hdup ⊢
    rw [if_neg hge, if_pos hgt, if_pos hdup]
    simp

theorem fib_levels_appended_witness :
    fib_ratios = [] ++ ("Fib_23.6", 0.236)
        :: [("Fib_38.2", 0.382), ("Fib_50.0", 0.500), ("Fib_61.8", 0.618), ("Fib_78.6", 0.786)]
      ∧ dfLowMin [⟨0, 0, 198, 0, 0, 0⟩]
          + (dfHighMax [⟨0, 0, 198, 0, 0, 0⟩] - dfLowMin [⟨0, 0, 198, 0, 0, 0⟩]) * 0.236
          < 100 * 0.99
      ∧ isDuplicateLevel
          (dfLowMin [⟨0, 0, 198, 0, 0, 0⟩]
            + (dfHighMax [⟨0, 0, 198, 0, 0, 0⟩] - dfLowMin [⟨0, 0, 198, 0, 0, 0⟩]) * 0.236)
          (fibFold [⟨0, 0, 198, 0, 0, 0⟩] [] [] 100 []).1 = false
      ∧ mkTechLevel
          (dfLowMin [⟨0, 0, 198, 0, 0, 0⟩]
            + (dfHighMax [⟨0, 0, 198, 0, 0, 0⟩] - dfLowMin [⟨0, 0, 198, 0, 0, 0⟩]) * 0.236)
          4 "Fib_23.6" 100
        ∈ (addFibLevels [⟨0, 0, 198, 0, 0, 0⟩] [] [] 100).1 := by
  have hc : dfLowMin [⟨0, 0, 198, 0, 0, 0⟩]
      + (dfHighMax [⟨0, 0, 198, 0, 0, 0⟩] - dfLowMin [⟨0, 0, 198, 0, 0, 0⟩]) * 0.236
      < 100 * 0.99 := by
    norm_num [dfLowMin, dfHighMax]
  have hd : isDuplicateLevel
      (dfLowMin [⟨0, 0, 198, 0, 0, 0⟩]
        + (dfHighMax [⟨0, 0, 198, 0, 0, 0⟩] - dfLowMin [⟨0, 0, 198, 0, 0, 0⟩]) * 0.236)
      (fibFold [⟨0, 0, 198, 0, 0, 0⟩] [] [] 100 []).1 = false := rfl
  exact ⟨rfl, hc, hd,
    (fib_levels_appended [⟨0, 0, 198, 0, 0, 0⟩] [] [] 100 []
      [("Fib_38.2", 0.382), ("Fib_50.0", 0.500), ("Fib_61.8", 0.618), ("Fib_78.6", 0.786)]
      "Fib_23.6" 0.236 rfl).1 hc hd⟩

/-- C7 counterexample: take the single-candle series with `high = low = 99`
and current price 100.  Every retracement level equals
`99 + 0 * ratio = 99`, which is exactly 1% below the current price
(`99 = 100 * 0.99`), both level lists are empty (so no same-side level is
within 0.5%), yet the source's strict test `fib_price < current_price *
0.99` fails and nothing is appended — refuting "appended whenever it is at
least 1% below the current price". -/
theorem fib_boundary_skipped_cex :
    dfLowMin [⟨0, 0, 99, 99, 0, 0⟩]
        + (dfHighMax [⟨0, 0, 99, 99, 0, 0⟩] - dfLowMin [⟨0, 0, 99, 99, 0, 0⟩]) * 0.5 = 99
      ∧ (99 : ℚ) = 100 * 0.99
      ∧ addFibLevels [⟨0, 0, 99, 99, 0, 0⟩] [] [] 100 = ([], []) := by
  refine ⟨by norm_num [dfLowMin, dfHighMax], by norm_num, ?_⟩
  norm_num [addFibLevels, fib_ratios, fibStep, dfLowMin, dfHighMax]

/-- Both components of `_add_technical_levels` end in the descending re-sort,
so they are sorted by score. -/
theorem add_technical_levels_sorted (df : List Candle) (supports resistances : List Level)
    (current_price : ℚ) :
    List.Sorted scoreGE (add_technical_levels df supports resistances current_price).1
      ∧ List.Sorted scoreGE (add_technical_levels df supports resistances current_price).2 :=
  ⟨List.sorted_insertionSort scoreGE _, List.sorted_insertionSort scoreGE _⟩

/-- Every successful `levelPipeline` output pair is sorted descending by
score. -/
theorem levelPipeline_sorted (df : List Candle) (tf : String) (ls rs : List Level)
    (hp : levelPipeline df tf = some (ls, rs)) :
    List.Sorted scoreGE ls ∧ List.Sorted scoreGE rs := by
  rw [levelPipeline] at hp
  cases h1 : find_local_extrema df tf true with
  | none => rw [h1] at hp; simp at hp
  | some sc =>
    cases h2 : find_local_extrema df tf false with
    | none => rw [h1, h2] at hp; simp at hp
    | some rc =>
      rw [h1, h2] at hp
      simp only [Option.some.injEq] at hp
      have hl := congrArg Prod.fst hp
      have hr := congrArg Prod.snd hp
      dsimp only at hl hr
      rw [← hl, ← hr]
      exact add_technical_levels_sorted df _ _ _

/-- C8: for every series accepted by the pipeline (≥ 50 candles) on which the
pipeline succeeds, the returned price lists are the prices of the first
`top_n_levels` (= 5) entries of the final level lists, each of length at
most 5, and those final level lists are sorted descending by final score. -/
theorem analyze_output_truncated_sorted (df : List Candle) (tf : String)
    (ls rs : List Level) (h50 : 50 ≤ df.length)
    (hp : levelPipeline df tf = some (ls, rs)) :
    analyze_support_resistance df tf
        = some ((ls.take top_n_levels).map Level.price,
                (rs.take top_n_levels).map Level.price)
      ∧ ((ls.take top_n_levels).map Level.price).length ≤ 5
      ∧ ((rs.take top_n_levels).map Level.price).length ≤ 5
      ∧ List.Sorted scoreGE ls ∧ List.Sorted scoreGE rs := by
  obtain ⟨hsl, hsr⟩ := levelPipeline_sorted df tf ls rs hp
  refine ⟨?_, ?_, ?_, hsl, hsr⟩
  · rw [analyze_support_resistance, if_neg (by omega), hp]
  · simp [top_n_levels]
  · simp [top_n_levels]

/-! Evaluation lemmas for the C8 witness: a flat 50-candle series. -/

theorem foldl_max_replicate (n : ℕ) (a : ℚ) : (List.replicate n a).foldl max a = a := by
  induction n with
  | zero => rfl
  | succ k ih => rw [List.replicate_succ, List.foldl_cons, max_self]; exact ih

theorem foldl_min_replicate (n : ℕ) (a : ℚ) : (List.replicate n a).foldl min a = a := by
  induction n with
  | zero => rfl
  | succ k ih => rw [List.replicate_succ, List.foldl_cons, min_self]; exact ih

theorem clipIdx_lt (n : ℕ) (h : 0 < n) (i : ℤ) : clipIdx n i < n := by
  rw [clipIdx]; omega

/-- Constant data has no strict local extrema at any window. -/
theorem argrelextrema_replicate (n w : ℕ) (q : ℚ) (b : Bool) (hw : 0 < w) :
    argrelextrema (List.replicate n q) b w = [] := by
  rw [argrelextrema, List.filter_eq_nil_iff]
  intro i hi
  have hin : i < n := by simpa using List.mem_range.mp hi
  have hn : 0 < n := by omega
  intro hT
  rw [isExtremum, List.all_eq_true] at hT
  have h1 := hT 1 (by rw [List.mem_range']; exact ⟨0, by omega, by omega⟩)
  have hc : (List.replicate n q).getD i 0 = q := by
    simp [List.getD, List.getElem?_replicate, hin]
  have hl : (List.replicate n q).getD
      (clipIdx (List.replicate n q).length ((i : ℤ) - (1 : ℕ))) 0 = q := by
    simp [List.getD, List.getElem?_replicate, clipIdx_lt n hn]
  dsimp only at h1
  rw [hc, hl] at h1
  cases b <;> simp at h1

/-- The flat candle used by the C8 witness series. -/
def flatCandle : Candle := ⟨0, 1, 1, 1, 1, 1⟩

/-- The C8 witness series: 50 identical candles at price 1. -/
def flatDf : List Candle := List.replicate 50 flatCandle

theorem flatDf_windows : get_dynamic_windows "1h" 50 = some [5] := by
  have h1 : "1h".data.getLast? = some 'h' := by decide
  have h2 : pyInt ['1'] = some 1 := by decide
  have hth : timeframe_to_hours "1h" = some 1 := by
    simp +decide [timeframe_to_hours, h1, h2, hourMultiplier]
  have hwf : windowsFor 1 = [5, 12, 24, 48, 72] := by
    have f1 := pytrunc_eq_of_eq_intCast
      (show (5 : ℚ) / 1 = ((5 : ℤ) : ℚ) by norm_num) (by norm_num)
    have f2 := pytrunc_eq_of_eq_intCast
      (show (12 : ℚ) / 1 = ((12 : ℤ) : ℚ) by norm_num) (by norm_num)
    have f3 := pytrunc_eq_of_eq_intCast
      (show (24 : ℚ) / 1 = ((24 : ℤ) : ℚ) by norm_num) (by norm_num)
    have f4 := pytrunc_eq_of_eq_intCast
      (show (48 : ℚ) / 1 = ((48 : ℤ) : ℚ) by norm_num) (by norm_num)
    have f5 := pytrunc_eq_of_eq_intCast
      (show (72 : ℚ) / 1 = ((72 : ℤ) : ℚ) by norm_num) (by norm_num)
    simp only [windowsFor, base_windows_hours, List.map, f1, f2, f3, f4, f5]
    decide
  have hqw : qualifiedWindows 1 50 = [5] := by rw [qualifiedWindows, hwf]; decide
  rw [get_dynamic_windows, hth]
  norm_num [hqw]

theorem flatDf_extrema (b : Bool) : find_local_extrema flatDf "1h" b = some [] := by
  have hlen : flatDf.length = 50 := by simp [flatDf]
  rw [find_local_extrema, hlen, flatDf_windows]
  have hdata : (if b = true then flatDf.map Candle.low else flatDf.map Candle.high)
      = List.replicate 50 1 := by
    cases b <;> simp [flatDf, flatCandle, List.map_replicate]
  rw [hdata]
  simp only [Option.map_some', Option.some.injEq, List.foldl_cons, List.foldl_nil,
    List.nil_append]
  rw [argrelextrema_replicate 50 5 1 b (by norm_num)]
  simp

theorem flatDf_current_price : currentPrice flatDf = 1 := by
  rw [currentPrice, flatDf]
  rw [show (50 : ℕ) = 49 + 1 from rfl, List.getLast?_replicate]
  rfl

theorem flatDf_bollinger : addBollinger flatDf [] [] 1 = ([], []) := by
  have hcloses : (flatDf.map Candle.close).drop (flatDf.length - 20)
      = List.replicate 20 1 := by
    simp [flatDf, flatCandle, List.map_replicate, List.drop_replicate]
  have hma : ma20last flatDf = 1 := by
    rw [ma20last, hcloses]
    simp [List.sum_replicate]
    norm_num
  have hstd : std20last flatDf = 0 := by
    rw [std20last, hcloses]
    have hsum : (List.replicate 20 (1 : ℚ)).sum = 20 := by
      rw [List.sum_replicate, nsmul_eq_mul]; norm_num
    simp only [hsum]
    norm_num [List.map_replicate, List.sum_replicate]
  rw [addBollinger, if_pos (by simp [flatDf] : 20 ≤ flatDf.length)]
  rw [hma, hstd]
  norm_num

theorem flatDf_fib : addFibLevels flatDf [] [] 1 = ([], []) := by
  have hhi : dfHighMax flatDf = 1 := by
    rw [dfHighMax, flatDf, flatCandle]
    rw [List.map_replicate]
    rw [show (50 : ℕ) = 49 + 1 from rfl, List.replicate_succ]
    exact foldl_max_replicate 49 1
  have hlo : dfLowMin flatDf = 1 := by
    rw [dfLowMin, flatDf, flatCandle]
    rw [List.map_replicate]
    rw [show (50 : ℕ) = 49 + 1 from rfl, List.replicate_succ]
    exact foldl_min_replicate 49 1
  rw [addFibLevels, hhi, hlo]
  norm_num [fib_ratios, fibStep]

theorem flatDf_pipeline : levelPipeline flatDf "1h" = some ([], []) := by
  rw [levelPipeline, flatDf_extrema true, flatDf_extrema false]
  have hcr : ∀ b : Bool, cluster_and_rank_advanced [] flatDf (currentPrice flatDf) b = [] := by
    intro b; simp [cluster_and_rank_advanced]
  have hv : ∀ b : Bool, validate_levels [] flatDf b = [] := by
    intro b; simp [validate_levels, sortLevelsDesc]
  simp only [hcr, hv]
  rw [flatDf_current_price]
  rw [add_technical_levels, flatDf_bollinger]
  simp only []
  rw [flatDf_fib]
  rfl

theorem analyze_output_truncated_sorted_witness :
    50 ≤ flatDf.length ∧ levelPipeline flatDf "1h" = some ([], []) ∧
      (analyze_support_resistance flatDf "1h"
          = some ((([] : List Level).take top_n_levels).map Level.price,
                  (([] : List Level).take top_n_levels).map Level.price)
        ∧ ((([] : List Level).take top_n_levels).map Level.price).length ≤ 5
        ∧ ((([] : List Level).take top_n_levels).map Level.price).length ≤ 5
        ∧ List.Sorted scoreGE [] ∧ List.Sorted scoreGE []) :=
  ⟨by simp [flatDf], flatDf_pipeline,
    analyze_output_truncated_sorted flatDf "1h" [] [] (by simp [flatDf]) flatDf_pipeline⟩

/-! ## Claim C2: DBSCAN density-reachability vs. sorted gap grouping

Spec-side definitions, written from the spec's description of DBSCAN
semantics: with `min_samples = 2`, a point is a core point iff at least two
points (itself included) lie in its closed eps-ball, i.e. iff some *other*
point lies within eps; a non-core point within eps of a core point would
itself be core, so every point is either core or noise, and clusters are the
classes of the transitive closure of the within-eps relation restricted to
non-noise points. -/

/-- One density-reachability step: two in-range candidate indices whose
prices differ by at most eps. -/
def dbStep (prices : List ℚ) (eps : ℚ) (i j : ℕ) : Prop :=
  i < prices.length ∧ j < prices.length ∧ |prices.getD i 0 - prices.getD j 0| ≤ eps

/-- DBSCAN's density-reachability closure (spec: "core points transitively
link via the eps-neighborhood"). -/
def dbReach (prices : List ℚ) (eps : ℚ) : ℕ → ℕ → Prop :=
  Relation.ReflTransGen (dbStep prices eps)

/-- DBSCAN noise under `min_samples = 2`: no other point lies within eps. -/
def dbNoise (prices : List ℚ) (eps : ℚ) (i : ℕ) : Prop :=
  ¬ ∃ j, j < prices.length ∧ j ≠ i ∧ |prices.getD i 0 - prices.getD j 0| ≤ eps

/-- All consecutive gaps of the sorted list between positions `a` and `b`
are at most eps. -/
def gapFree (s : List ℚ) (eps : ℚ) (a b : ℕ) : Prop :=
  ∀ k, a ≤ k → k + 1 ≤ b → s.getD (k + 1) 0 - s.getD k 0 ≤ eps

/-- A within-eps step between positions of the sorted list. -/
def posStep (s : List ℚ) (eps : ℚ) (x y : ℕ) : Prop :=
  x < s.length ∧ y < s.length ∧ |s.getD x 0 - s.getD y 0| ≤ eps

/-- A within-eps step between member values. -/
def valStep (l : List ℚ) (eps : ℚ) (a b : ℚ) : Prop :=
  a ∈ l ∧ b ∈ l ∧ |a - b| ≤ eps

theorem getD_eq_get {l : List ℚ} {n : ℕ} (h : n < l.length) :
    l.getD n 0 = l.get ⟨n, h⟩ := by
  simp [List.getD_eq_getElem?_getD, List.getElem?_eq_getElem h]

theorem sorted_getD_mono {s : List ℚ} (hs : s.Sorted (· ≤ ·)) {a b : ℕ}
    (hab : a ≤ b) (hb : b < s.length) : s.getD a 0 ≤ s.getD b 0 := by
  have ha : a < s.length := by omega
  rw [getD_eq_get ha, getD_eq_get hb]
  exact hs.rel_get_of_le (by simpa using hab)

theorem sortedPrices_sorted (prices : List ℚ) :
    (sortedPrices prices).Sorted (· ≤ ·) :=
  List.sorted_insertionSort _ prices

theorem sortedPrices_perm (prices : List ℚ) : (sortedPrices prices).Perm prices :=
  List.perm_insertionSort _ prices

theorem runStart_le (s : List ℚ) (eps : ℚ) : ∀ r, runStart s eps r ≤ r
  | 0 => le_refl 0
  | r + 1 => by
    rw [runStart]
    split_ifs
    · exact le_trans (runStart_le s eps r) (by omega)
    · exact le_refl _

theorem runStart_gapFree (s : List ℚ) (eps : ℚ) :
    ∀ r, gapFree s eps (runStart s eps r) r
  | 0 => by intro k h1 h2; omega
  | r + 1 => by
    rw [runStart]
    split_ifs with hg
    · intro k h1 h2
      rcases Nat.lt_or_ge k r with hk | hk
      · exact runStart_gapFree s eps r k h1 (by omega)
      · have : k = r := by omega
        subst this
        exact hg
    · intro k h1 h2; omega

/-- Walking down through a gap-free stretch does not change the run start. -/
theorem runStart_eq_of_gapFree (s : List ℚ) (eps : ℚ) (a : ℕ) :
    ∀ b, a ≤ b → gapFree s eps a b → runStart s eps b = runStart s eps a := by
  intro b
  induction b with
  | zero =>
    intro h _
    have ha : a = 0 := by omega
    subst ha; rfl
  | succ k ih =>
    intro hab hgf
    rcases Nat.lt_or_ge a (k + 1) with hlt | hge
    · have hga : a ≤ k := by omega
      rw [runStart, if_pos (hgf k hga (le_refl _))]
      exact ih hga fun m h1 h2 => hgf m h1 (by omega)
    · have : a = k + 1 := by omega
      subst this; rfl

theorem runEnd_ge (s : List ℚ) (eps : ℚ) (r : ℕ) : r ≤ runEnd s eps r := by
  rw [runEnd]
  split_ifs with h1 h2
  · exact le_trans (by omega) (runEnd_ge s eps (r + 1))
  · exact le_refl r
  · exact le_refl r
termination_by s.length - r
decreasing_by omega

theorem runEnd_lt_length (s : List ℚ) (eps : ℚ) (r : ℕ) (h : r < s.length) :
    runEnd s eps r < s.length := by
  rw [runEnd]
  split_ifs with h1 h2
  · exact runEnd_lt_length s eps (r + 1) h1
  · exact h
  · exact h
termination_by s.length - r
decreasing_by omega

/-- The equality `runStart r = r` holds exactly when there is no within-eps gap to the left. -/
theorem runStart_eq_self_iff (s : List ℚ) (eps : ℚ) (r : ℕ) :
    runStart s eps r = r
      ↔ ¬ (0 < r ∧ s.getD r 0 - s.getD (r - 1) 0 ≤ eps) := by
  cases r with
  | zero => simp [runStart]
  | succ k =>
    rw [runStart]
    split_ifs with hg
    · constructor
      · intro h
        have := runStart_le s eps k
        omega
      · intro h
        exact absurd ⟨by omega, by simpa using hg⟩ h
    · constructor
      · intro _
        intro hc
        exact hg (by simpa using hc.2)
      · intro _; rfl

/-- The equality `runEnd r = r` holds exactly when there is no within-eps gap to the right. -/
theorem runEnd_eq_self_iff (s : List ℚ) (eps : ℚ) (r : ℕ) :
    runEnd s eps r = r
      ↔ ¬ (r + 1 < s.length ∧ s.getD (r + 1) 0 - s.getD r 0 ≤ eps) := by
  rw [runEnd]
  split_ifs with h1 h2
  · constructor
    · intro h
      have := runEnd_ge s eps (r + 1)
      omega
    · intro h
      exact absurd ⟨h1, h2⟩ h
  · constructor
    · intro _ hc
      exact h2 hc.2
    · intro _; rfl
  · constructor
    · intro _ hc
      exact h1 hc.1
    · intro _; rfl

theorem runEnd_gapFree (s : List ℚ) (eps : ℚ) (r : ℕ) :
    gapFree s eps r (runEnd s eps r) := by
  rw [runEnd]
  split_ifs with h1 h2
  · intro k hk1 hk2
    rcases Nat.lt_or_ge k (r + 1) with hk | hk
    · have : k = r := by omega
      subst this
      exact h2
    · exact runEnd_gapFree s eps (r + 1) k hk hk2
  · intro k hk1 hk2; omega
  · intro k hk1 hk2; omega
termination_by s.length - r
decreasing_by omega

theorem gapFree_sub {s : List ℚ} {eps : ℚ} {a b a' b' : ℕ} (h : gapFree s eps a b)
    (ha : a ≤ a') (hb : b' ≤ b) : gapFree s eps a' b' :=
  fun k h1 h2 => h k (by omega) (by omega)

/-- Gap-freeness between two positions, order-independent. -/
def gapFreeBetween (s : List ℚ) (eps : ℚ) (x y : ℕ) : Prop :=
  gapFree s eps (min x y) (max x y)

theorem gapFreeBetween_comm {s : List ℚ} {eps : ℚ} {x y : ℕ}
    (h : gapFreeBetween s eps x y) : gapFreeBetween s eps y x := by
  rw [gapFreeBetween, Nat.min_comm, Nat.max_comm]
  exact h

/-- Interval union: gap-freeness between `x,y` and `y,z` gives it between
`x,z`. -/
theorem gapFreeBetween_trans {s : List ℚ} {eps : ℚ} {x y z : ℕ}
    (hxy : gapFreeBetween s eps x y) (hyz : gapFreeBetween s eps y z) :
    gapFreeBetween s eps x z := by
  intro k h1 h2
  by_cases hc : min x y ≤ k ∧ k + 1 ≤ max x y
  · exact hxy k hc.1 hc.2
  · exact hyz k (by omega) (by omega)

/-- A single sorted within-eps step is gap-free in between. -/
theorem posStep_gapFreeBetween {s : List ℚ} {eps : ℚ} (hs : s.Sorted (· ≤ ·))
    {x y : ℕ} (h : posStep s eps x y) : gapFreeBetween s eps x y := by
  obtain ⟨hx, hy, habs⟩ := h
  intro k h1 h2
  have hmaxlt : max x y < s.length := by omega
  have hlo : s.getD (min x y) 0 ≤ s.getD k 0 :=
    sorted_getD_mono hs (by omega) (by omega)
  have hhi : s.getD (k + 1) 0 ≤ s.getD (max x y) 0 :=
    sorted_getD_mono hs (by omega) hmaxlt
  have hminmax : s.getD (max x y) 0 - s.getD (min x y) 0 ≤ eps := by
    rcases le_total x y with hxy | hxy
    · rw [Nat.min_eq_left hxy, Nat.max_eq_right hxy]
      calc s.getD y 0 - s.getD x 0 ≤ |s.getD x 0 - s.getD y 0| := by
            rw [abs_sub_comm]; exact le_abs_self _
        _ ≤ eps := habs
    · rw [Nat.min_eq_right hxy, Nat.max_eq_left hxy]
      calc s.getD x 0 - s.getD y 0 ≤ |s.getD x 0 - s.getD y 0| := le_abs_self _
        _ ≤ eps := habs
  linarith

/-- Conversely, a gap-free stretch of the sorted list yields a
reachability chain along consecutive positions. -/
theorem gapFree_chain {s : List ℚ} {eps : ℚ} (hs : s.Sorted (· ≤ ·)) (a : ℕ) :
    ∀ b, a ≤ b → b < s.length → gapFree s eps a b →
      Relation.ReflTransGen (posStep s eps) a b := by
  intro b
  induction b with
  | zero =>
    intro hab _ _
    have : a = 0 := by omega
    subst this; exact Relation.ReflTransGen.refl
  | succ k ih =>
    intro hab hblt hgf
    rcases Nat.lt_or_ge a (k + 1) with hlt | hge
    · have hchain := ih (by omega) (by omega)
        (fun m h1 h2 => hgf m h1 (by omega))
      refine hchain.tail ?_
      refine ⟨by omega, hblt, ?_⟩
      have hmono : s.getD k 0 ≤ s.getD (k + 1) 0 :=
        sorted_getD_mono hs (by omega) hblt
      have := hgf k (by omega) (le_refl _)
      rw [abs_sub_comm, abs_of_nonneg (by linarith)]
      exact this
    · have : a = k + 1 := by omega
      subst this; exact Relation.ReflTransGen.refl

/-- A reachability chain between sorted positions forces all gaps in
between to be within eps. -/
theorem chain_gapFreeBetween {s : List ℚ} {eps : ℚ} (hs : s.Sorted (· ≤ ·))
    {x y : ℕ} (h : Relation.ReflTransGen (posStep s eps) x y) :
    gapFreeBetween s eps x y := by
  induction h with
  | refl => intro k h1 h2; omega
  | tail _ hstep ih => exact gapFreeBetween_trans ih (posStep_gapFreeBetween hs hstep)

theorem getD_mem {l : List ℚ} {i : ℕ} (hi : i < l.length) : l.getD i 0 ∈ l := by
  rw [getD_eq_get hi]
  exact List.get_mem l i hi

theorem getD_indexOf {s : List ℚ} {v : ℚ} (h : v ∈ s) :
    s.getD (s.indexOf v) 0 = v := by
  have hlt := List.indexOf_lt_length.mpr h
  rw [getD_eq_get hlt]
  exact List.indexOf_get hlt

/-- Density-reachability of indices yields a chain between the values. -/
theorem dbReach_valStep {prices : List ℚ} {eps : ℚ} {i j : ℕ}
    (h : dbReach prices eps i j) :
    Relation.ReflTransGen (valStep prices eps) (prices.getD i 0) (prices.getD j 0) := by
  induction h with
  | refl => exact Relation.ReflTransGen.refl
  | tail _ hstep ih =>
    exact ih.tail ⟨getD_mem hstep.1, getD_mem hstep.2.1, hstep.2.2⟩

/-- Value chains transport along permutations. -/
theorem valStep_chain_perm {l l' : List ℚ} (hp : l.Perm l') {eps : ℚ} {a b : ℚ}
    (h : Relation.ReflTransGen (valStep l eps) a b) :
    Relation.ReflTransGen (valStep l' eps) a b :=
  Relation.ReflTransGen.mono
    (fun _ _ hxy => ⟨hp.mem_iff.mp hxy.1, hp.mem_iff.mp hxy.2.1, hxy.2.2⟩) h

/-- A value chain in the sorted list gives a chain between first-occurrence
positions. -/
theorem valStep_chain_pos {s : List ℚ} {eps : ℚ} {a b : ℚ}
    (h : Relation.ReflTransGen (valStep s eps) a b) :
    Relation.ReflTransGen (posStep s eps) (s.indexOf a) (s.indexOf b) := by
  induction h with
  | refl => exact Relation.ReflTransGen.refl
  | tail _ hstep ih =>
    refine ih.tail ⟨List.indexOf_lt_length.mpr hstep.1,
      List.indexOf_lt_length.mpr hstep.2.1, ?_⟩
    rw [getD_indexOf hstep.1, getD_indexOf hstep.2.1]
    exact hstep.2.2

/-- A chain between sorted positions gives density-reachability between
candidate indices holding the corresponding values. -/
theorem posStep_chain_dbReach {prices s : List ℚ} (hp : s.Perm prices) {eps : ℚ}
    {x y : ℕ} (h : Relation.ReflTransGen (posStep s eps) x y) :
    dbReach prices eps (prices.indexOf (s.getD x 0)) (prices.indexOf (s.getD y 0)) := by
  induction h with
  | refl => exact Relation.ReflTransGen.refl
  | tail _ hstep ih =>
    have hym : s.getD _ 0 ∈ prices := hp.mem_iff.mp (getD_mem hstep.1)
    have hzm : s.getD _ 0 ∈ prices := hp.mem_iff.mp (getD_mem hstep.2.1)
    refine ih.tail ⟨List.indexOf_lt_length.mpr hym, List.indexOf_lt_length.mpr hzm, ?_⟩
    rw [getD_indexOf hym, getD_indexOf hzm]
    exact hstep.2.2

theorem duplicate_of_two_getD {l : List ℚ} :
    ∀ {i j : ℕ}, i < l.length → j < l.length → i ≠ j → l.getD i 0 = l.getD j 0 →
      List.Duplicate (l.getD i 0) l := by
  induction l with
  | nil => intro i j hi _ _ _; simp at hi
  | cons a t ih =>
    intro i j hi hj hne he
    match i, j with
    | 0, 0 => exact absurd rfl hne
    | 0, k + 1 =>
      refine List.Mem.duplicate_cons_self ?_
      have hk : k < t.length := by simpa using hj
      have : (a :: t).getD 0 0 = t.getD k 0 := he
      simp only [List.getD_cons_zero] at this ⊢
      rw [this]
      exact getD_mem hk
    | m + 1, 0 =>
      have hm : m < t.length := by simpa using hi
      have : t.getD m 0 = (a :: t).getD 0 0 := he
      simp only [List.getD_cons_zero] at this
      simp only [List.getD_cons_succ]
      rw [this]
      exact List.Mem.duplicate_cons_self (this ▸ getD_mem hm)
    | m + 1, k + 1 =>
      have hm : m < t.length := by simpa using hi
      have hk : k < t.length := by simpa using hj
      simp only [List.getD_cons_succ] at he ⊢
      exact (ih hm hk (by omega) he).cons_duplicate

theorem two_getD_of_duplicate {l : List ℚ} {x : ℚ} (h : List.Duplicate x l) :
    ∃ p q, p < q ∧ q < l.length ∧ l.getD p 0 = x ∧ l.getD q 0 = x := by
  induction h with
  | cons_mem hm =>
    obtain ⟨m, hmlt, hmv⟩ := List.mem_iff_getElem.mp hm
    refine ⟨0, m + 1, by omega, by simpa using hmlt, rfl, ?_⟩
    rw [List.getD_cons_succ, getD_eq_get hmlt]
    simpa using hmv
  | cons_duplicate _ ih =>
    obtain ⟨p, q, h1, h2, h3, h4⟩ := ih
    exact ⟨p + 1, q + 1, by omega, by simpa using h2,
      by simpa using h3, by simpa using h4⟩

theorem duplicate_perm {l l' : List ℚ} (hp : l.Perm l') {x : ℚ}
    (h : List.Duplicate x l) : List.Duplicate x l' := by
  rw [List.duplicate_iff_two_le_count] at h ⊢
  rwa [← hp.count_eq]

/-- Density-reachability between candidate indices is exactly gap-freeness
between the corresponding sorted positions. -/
theorem dbReach_iff_gapFreeBetween (prices : List ℚ) (eps : ℚ) (heps : 0 ≤ eps)
    (i j : ℕ) (hi : i < prices.length) (hj : j < prices.length) :
    dbReach prices eps i j
      ↔ gapFreeBetween (sortedPrices prices) eps
          ((sortedPrices prices).indexOf (prices.getD i 0))
          ((sortedPrices prices).indexOf (prices.getD j 0)) := by
  have hs : (sortedPrices prices).Sorted (· ≤ ·) := sortedPrices_sorted prices
  have hp : (sortedPrices prices).Perm prices := sortedPrices_perm prices
  have him : prices.getD i 0 ∈ sortedPrices prices := hp.mem_iff.mpr (getD_mem hi)
  have hjm : prices.getD j 0 ∈ sortedPrices prices := hp.mem_iff.mpr (getD_mem hj)
  have hri : (sortedPrices prices).indexOf (prices.getD i 0) < (sortedPrices prices).length :=
    List.indexOf_lt_length.mpr him
  have hrj : (sortedPrices prices).indexOf (prices.getD j 0) < (sortedPrices prices).length :=
    List.indexOf_lt_length.mpr hjm
  constructor
  · intro h
    exact chain_gapFreeBetween hs
      (valStep_chain_pos (valStep_chain_perm hp.symm (dbReach_valStep h)))
  · intro h
    have hsym : Symmetric (posStep (sortedPrices prices) eps) :=
      fun x y hxy => ⟨hxy.2.1, hxy.1, by rw [abs_sub_comm]; exact hxy.2.2⟩
    have hchain2 : Relation.ReflTransGen (posStep (sortedPrices prices) eps)
        ((sortedPrices prices).indexOf (prices.getD i 0))
        ((sortedPrices prices).indexOf (prices.getD j 0)) := by
      rcases le_total ((sortedPrices prices).indexOf (prices.getD i 0))
          ((sortedPrices prices).indexOf (prices.getD j 0)) with hle | hle
      · have := gapFree_chain hs _ _ hle (by omega)
          (by rw [gapFreeBetween, Nat.min_eq_left hle, Nat.max_eq_right hle] at h; exact h)
        exact this
      · have hrev := gapFree_chain hs _ _ hle (by omega)
          (by rw [gapFreeBetween, Nat.min_eq_right hle, Nat.max_eq_left hle] at h; exact h)
        exact Relation.ReflTransGen.symmetric hsym hrev
    have hmid := posStep_chain_dbReach hp hchain2
    rw [getD_indexOf him, getD_indexOf hjm] at hmid
    have hi0m : prices.getD i 0 ∈ prices := getD_mem hi
    have hj0m : prices.getD j 0 ∈ prices := getD_mem hj
    have e1 : dbStep prices eps i (prices.indexOf (prices.getD i 0)) :=
      ⟨hi, List.indexOf_lt_length.mpr hi0m, by
        rw [getD_indexOf hi0m, sub_self, abs_zero]; exact heps⟩
    have e2 : dbStep prices eps (prices.indexOf (prices.getD j 0)) j :=
      ⟨List.indexOf_lt_length.mpr hj0m, hj, by
        rw [getD_indexOf hj0m, sub_self, abs_zero]; exact heps⟩
    exact ((Relation.ReflTransGen.single e1).trans hmid).trans
      (Relation.ReflTransGen.single e2)

/-- A candidate has a within-eps neighbor iff its sorted position has. -/
theorem not_dbNoise_iff_exists_pos (prices : List ℚ) (eps : ℚ) (heps : 0 ≤ eps)
    (i : ℕ) (hi : i < prices.length) :
    (¬ dbNoise prices eps i)
      ↔ ∃ q, q < (sortedPrices prices).length
          ∧ q ≠ (sortedPrices prices).indexOf (prices.getD i 0)
          ∧ |(sortedPrices prices).getD q 0 - prices.getD i 0| ≤ eps := by
  have hp : (sortedPrices prices).Perm prices := sortedPrices_perm prices
  have him : prices.getD i 0 ∈ sortedPrices prices := hp.mem_iff.mpr (getD_mem hi)
  have hvr : (sortedPrices prices).getD
      ((sortedPrices prices).indexOf (prices.getD i 0)) 0 = prices.getD i 0 :=
    getD_indexOf him
  rw [dbNoise, not_not]
  constructor
  · rintro ⟨j, hjlt, hjne, hjeps⟩
    by_cases hvv : prices.getD j 0 = prices.getD i 0
    · have hdup : List.Duplicate (prices.getD i 0) prices :=
        duplicate_of_two_getD hi hjlt (fun hc => hjne hc.symm) hvv.symm
      have hdups : List.Duplicate (prices.getD i 0) (sortedPrices prices) :=
        duplicate_perm hp.symm hdup
      obtain ⟨p, q, hpq, hqlt, hpv, hqv⟩ := two_getD_of_duplicate hdups
      by_cases hpr : p = (sortedPrices prices).indexOf (prices.getD i 0)
      · refine ⟨q, hqlt, by omega, ?_⟩
        rw [hqv, sub_self, abs_zero]; exact heps
      · refine ⟨p, by omega, hpr, ?_⟩
        rw [hpv, sub_self, abs_zero]; exact heps
    · have hjmem : prices.getD j 0 ∈ sortedPrices prices :=
        hp.mem_iff.mpr (getD_mem hjlt)
      refine ⟨(sortedPrices prices).indexOf (prices.getD j 0),
        List.indexOf_lt_length.mpr hjmem, ?_, ?_⟩
      · intro hc
        apply hvv
        rw [← getD_indexOf hjmem, hc, hvr]
      · rw [getD_indexOf hjmem, abs_sub_comm]
        exact hjeps
  · rintro ⟨q, hqlt, hqne, hqeps⟩
    by_cases hvv : (sortedPrices prices).getD q 0 = prices.getD i 0
    · have hdups : List.Duplicate (prices.getD i 0) (sortedPrices prices) := by
        have := duplicate_of_two_getD hqlt
          (List.indexOf_lt_length.mpr him) hqne (by rw [hvv, hvr])
        rwa [hvv] at this
      have hdup : List.Duplicate (prices.getD i 0) prices := duplicate_perm hp hdups
      obtain ⟨p, q', hpq, hqlt', hpv, hqv⟩ := two_getD_of_duplicate hdup
      by_cases hpi : p = i
      · refine ⟨q', by omega, by omega, ?_⟩
        rw [hqv, sub_self, abs_zero]; exact heps
      · refine ⟨p, by omega, hpi, ?_⟩
        rw [hpv, sub_self, abs_zero]; exact heps
    · have hqmem : (sortedPrices prices).getD q 0 ∈ prices :=
        hp.mem_iff.mp (getD_mem hqlt)
      refine ⟨prices.indexOf ((sortedPrices prices).getD q 0),
        List.indexOf_lt_length.mpr hqmem, ?_, ?_⟩
      · intro hc
        apply hvv
        rw [← getD_indexOf hqmem, hc]
      · rw [getD_indexOf hqmem, abs_sub_comm]
        exact hqeps

/-- In the sorted list a position has a within-eps neighbor iff one of its
two adjacent gaps is within eps. -/
theorem exists_pos_iff_adjacent {s : List ℚ} (hs : s.Sorted (· ≤ ·)) (eps : ℚ)
    {r : ℕ} (hr : r < s.length) :
    (∃ q, q < s.length ∧ q ≠ r ∧ |s.getD q 0 - s.getD r 0| ≤ eps)
      ↔ (0 < r ∧ s.getD r 0 - s.getD (r - 1) 0 ≤ eps)
        ∨ (r + 1 < s.length ∧ s.getD (r + 1) 0 - s.getD r 0 ≤ eps) := by
  constructor
  · rintro ⟨q, hqlt, hqne, hqeps⟩
    rcases Nat.lt_or_ge q r with hlt | hge
    · left
      refine ⟨by omega, ?_⟩
      have h1 : s.getD q 0 ≤ s.getD (r - 1) 0 := sorted_getD_mono hs (by omega) (by omega)
      have h2 : s.getD q 0 ≤ s.getD r 0 := sorted_getD_mono hs (by omega) hr
      have habs : |s.getD q 0 - s.getD r 0| = s.getD r 0 - s.getD q 0 := by
        rw [abs_sub_comm, abs_of_nonneg (by linarith)]
      linarith [hqeps, habs.symm.trans_le hqeps]
    · have hgt : r < q := by omega
      right
      refine ⟨by omega, ?_⟩
      have h1 : s.getD (r + 1) 0 ≤ s.getD q 0 := sorted_getD_mono hs (by omega) hqlt
      have h2 : s.getD r 0 ≤ s.getD q 0 := sorted_getD_mono hs (by omega) hqlt
      have habs : |s.getD q 0 - s.getD r 0| = s.getD q 0 - s.getD r 0 :=
        abs_of_nonneg (by linarith)
      linarith [habs.symm.trans_le hqeps]
  · rintro (⟨hpos, hgap⟩ | ⟨hlt, hgap⟩)
    · refine ⟨r - 1, by omega, by omega, ?_⟩
      have h1 : s.getD (r - 1) 0 ≤ s.getD r 0 := sorted_getD_mono hs (by omega) hr
      rw [abs_of_nonpos (by linarith)]
      have : r - 1 + 1 = r := by omega
      rw [show -(s.getD (r - 1) 0 - s.getD r 0) = s.getD r 0 - s.getD (r - 1) 0 by ring]
      exact hgap
    · refine ⟨r + 1, hlt, by omega, ?_⟩
      have h1 : s.getD r 0 ≤ s.getD (r + 1) 0 := sorted_getD_mono hs (by omega) hlt
      rw [abs_of_nonneg (by linarith)]
      exact hgap

/-- The gap-run test of the executable clustering agrees with DBSCAN noise. -/
theorem dbNoise_iff_runs (prices : List ℚ) (eps : ℚ) (heps : 0 ≤ eps)
    (i : ℕ) (hi : i < prices.length) :
    dbNoise prices eps i
      ↔ runStart (sortedPrices prices) eps
            ((sortedPrices prices).indexOf (prices.getD i 0))
          = runEnd (sortedPrices prices) eps
              ((sortedPrices prices).indexOf (prices.getD i 0)) := by
  have hs : (sortedPrices prices).Sorted (· ≤ ·) := sortedPrices_sorted prices
  have hp : (sortedPrices prices).Perm prices := sortedPrices_perm prices
  have him : prices.getD i 0 ∈ sortedPrices prices := hp.mem_iff.mpr (getD_mem hi)
  have hr : (sortedPrices prices).indexOf (prices.getD i 0) < (sortedPrices prices).length :=
    List.indexOf_lt_length.mpr him
  have hvr := getD_indexOf him
  have key := exists_pos_iff_adjacent hs eps hr
  rw [hvr] at key
  have key2 := (not_dbNoise_iff_exists_pos prices eps heps i hi).trans key
  constructor
  · intro hn
    have hnot : ¬ ((0 < (sortedPrices prices).indexOf (prices.getD i 0)
          ∧ prices.getD i 0
              - (sortedPrices prices).getD
                  ((sortedPrices prices).indexOf (prices.getD i 0) - 1) 0 ≤ eps)
        ∨ ((sortedPrices prices).indexOf (prices.getD i 0) + 1 < (sortedPrices prices).length
          ∧ (sortedPrices prices).getD
              ((sortedPrices prices).indexOf (prices.getD i 0) + 1) 0
              - prices.getD i 0 ≤ eps)) := fun hc => (key2.mpr hc) hn
    push_neg at hnot
    obtain ⟨hn1, hn2⟩ := hnot
    have h1 : runStart (sortedPrices prices) eps
        ((sortedPrices prices).indexOf (prices.getD i 0))
        = (sortedPrices prices).indexOf (prices.getD i 0) := by
      rw [runStart_eq_self_iff, hvr]
      intro hc
      exact absurd hc.2 (not_le.mpr (hn1 hc.1))
    have h2 : runEnd (sortedPrices prices) eps
        ((sortedPrices prices).indexOf (prices.getD i 0))
        = (sortedPrices prices).indexOf (prices.getD i 0) := by
      rw [runEnd_eq_self_iff, hvr]
      intro hc
      exact absurd hc.2 (not_le.mpr (hn2 hc.1))
    rw [h1, h2]
  · intro heq
    intro hnn
    have h1 := runStart_le (sortedPrices prices) eps
      ((sortedPrices prices).indexOf (prices.getD i 0))
    have h2 := runEnd_ge (sortedPrices prices) eps
      ((sortedPrices prices).indexOf (prices.getD i 0))
    have hsr : runStart (sortedPrices prices) eps
        ((sortedPrices prices).indexOf (prices.getD i 0))
        = (sortedPrices prices).indexOf (prices.getD i 0) := by omega
    have her : runEnd (sortedPrices prices) eps
        ((sortedPrices prices).indexOf (prices.getD i 0))
        = (sortedPrices prices).indexOf (prices.getD i 0) := by omega
    have hcontr := key2.mp (fun hn => hn hnn)
    rcases hcontr with ⟨hpos, hgap⟩ | ⟨hlt, hgap⟩
    · rw [runStart_eq_self_iff, hvr] at hsr
      exact hsr ⟨hpos, hgap⟩
    · rw [runEnd_eq_self_iff, hvr] at her
      exact her ⟨hlt, hgap⟩

theorem getD_eq_getElem_any {α : Type} {l : List α} {n : ℕ} (d : α) (h : n < l.length) :
    l.getD n d = l[n] := by
  simp [List.getD_eq_getElem?_getD, List.getElem?_eq_getElem h]

/-- The label computed by `_cluster_prices_dbscan` at an in-range index. -/
theorem cluster_label_at (prices : List ℚ) (cp : ℚ) {i : ℕ} (hi : i < prices.length) :
    (cluster_prices_dbscan prices cp).getD i 0
      = (if runStart (sortedPrices prices) (|cp| * 0.003)
              ((sortedPrices prices).indexOf (prices.getD i 0))
            = runEnd (sortedPrices prices) (|cp| * 0.003)
                ((sortedPrices prices).indexOf (prices.getD i 0))
         then -1
         else (runStart (sortedPrices prices) (|cp| * 0.003)
              ((sortedPrices prices).indexOf (prices.getD i 0)) : ℤ)) := by
  have h1 : cluster_prices_dbscan prices cp = prices.map (fun p =>
      if runStart (sortedPrices prices) (|cp| * 0.003) ((sortedPrices prices).indexOf p)
          = runEnd (sortedPrices prices) (|cp| * 0.003) ((sortedPrices prices).indexOf p)
      then -1
      else (runStart (sortedPrices prices) (|cp| * 0.003)
            ((sortedPrices prices).indexOf p) : ℤ)) := rfl
  rw [h1]
  have hlen : i < (prices.map (fun p =>
      if runStart (sortedPrices prices) (|cp| * 0.003) ((sortedPrices prices).indexOf p)
          = runEnd (sortedPrices prices) (|cp| * 0.003) ((sortedPrices prices).indexOf p)
      then -1
      else (runStart (sortedPrices prices) (|cp| * 0.003)
            ((sortedPrices prices).indexOf p) : ℤ))).length := by
    simpa using hi
  rw [getD_eq_getElem_any 0 hlen, List.getElem_map, getD_eq_getElem_any 0 hi]

/-- C2: `_cluster_prices_dbscan` (sorted contiguous-gap grouping with
`eps = |reference_price| * 0.003` and minimum run size 2) produces exactly
the cluster membership of DBSCAN's density-reachability semantics: an index
is labeled `-1` iff it is DBSCAN noise, and two indices share a non-noise
label iff they are density-reachable and neither is noise. -/
theorem dbscan_gap_grouping_equiv (prices : List ℚ) (cp : ℚ) (i j : ℕ)
    (hi : i < prices.length) (hj : j < prices.length) :
    ((cluster_prices_dbscan prices cp).getD i 0 = -1
        ↔ dbNoise prices (|cp| * 0.003) i)
      ∧ ((cluster_prices_dbscan prices cp).getD i 0
              = (cluster_prices_dbscan prices cp).getD j 0
            ∧ (cluster_prices_dbscan prices cp).getD i 0 ≠ -1
          ↔ dbReach prices (|cp| * 0.003) i j
              ∧ ¬ dbNoise prices (|cp| * 0.003) i
              ∧ ¬ dbNoise prices (|cp| * 0.003) j) := by
  have heps : (0 : ℚ) ≤ |cp| * 0.003 := by positivity
  have noiseIff : ∀ k, k < prices.length →
      ((cluster_prices_dbscan prices cp).getD k 0 = -1
        ↔ dbNoise prices (|cp| * 0.003) k) := by
    intro k hk
    rw [cluster_label_at prices cp hk]
    split_ifs with hrun
    · exact iff_of_true rfl ((dbNoise_iff_runs prices _ heps k hk).mpr hrun)
    · refine iff_of_false (fun hc => ?_) ?_
      · exact absurd hc (by simp)
      · intro hn
        exact hrun ((dbNoise_iff_runs prices _ heps k hk).mp hn)
  refine ⟨noiseIff i hi, ?_⟩
  constructor
  · rintro ⟨heq, hnem1⟩
    have hnoti : ¬ dbNoise prices (|cp| * 0.003) i :=
      fun hn => hnem1 ((noiseIff i hi).mpr hn)
    have hnotj : ¬ dbNoise prices (|cp| * 0.003) j := by
      intro hn
      have hl := (noiseIff j hj).mpr hn
      rw [← heq] at hl
      exact hnem1 hl
    refine ⟨?_, hnoti, hnotj⟩
    have hrunsi : ¬ (runStart (sortedPrices prices) (|cp| * 0.003)
          ((sortedPrices prices).indexOf (prices.getD i 0))
        = runEnd (sortedPrices prices) (|cp| * 0.003)
            ((sortedPrices prices).indexOf (prices.getD i 0))) :=
      fun h => hnoti ((dbNoise_iff_runs prices _ heps i hi).mpr h)
    have hrunsj : ¬ (runStart (sortedPrices prices) (|cp| * 0.003)
          ((sortedPrices prices).indexOf (prices.getD j 0))
        = runEnd (sortedPrices prices) (|cp| * 0.003)
            ((sortedPrices prices).indexOf (prices.getD j 0))) :=
      fun h => hnotj ((dbNoise_iff_runs prices _ heps j hj).mpr h)
    rw [cluster_label_at prices cp hi, cluster_label_at prices cp hj,
      if_neg hrunsi, if_neg hrunsj] at heq
    have hstarts : runStart (sortedPrices prices) (|cp| * 0.003)
          ((sortedPrices prices).indexOf (prices.getD i 0))
        = runStart (sortedPrices prices) (|cp| * 0.003)
            ((sortedPrices prices).indexOf (prices.getD j 0)) := by
      exact_mod_cast heq
    apply (dbReach_iff_gapFreeBetween prices _ heps i j hi hj).mpr
    rcases le_total ((sortedPrices prices).indexOf (prices.getD i 0))
        ((sortedPrices prices).indexOf (prices.getD j 0)) with hle | hle
    · rw [gapFreeBetween, Nat.min_eq_left hle, Nat.max_eq_right hle]
      refine gapFree_sub (runStart_gapFree (sortedPrices prices) (|cp| * 0.003)
        ((sortedPrices prices).indexOf (prices.getD j 0))) ?_ (le_refl _)
      rw [← hstarts]
      exact runStart_le (sortedPrices prices) (|cp| * 0.003) _
    · rw [gapFreeBetween, Nat.min_eq_right hle, Nat.max_eq_left hle]
      refine gapFree_sub (runStart_gapFree (sortedPrices prices) (|cp| * 0.003)
        ((sortedPrices prices).indexOf (prices.getD i 0))) ?_ (le_refl _)
      rw [hstarts]
      exact runStart_le (sortedPrices prices) (|cp| * 0.003) _
  · rintro ⟨hreach, hni, hnj⟩
    have hgfb := (dbReach_iff_gapFreeBetween prices _ heps i j hi hj).mp hreach
    have hrunsi : ¬ (runStart (sortedPrices prices) (|cp| * 0.003)
          ((sortedPrices prices).indexOf (prices.getD i 0))
        = runEnd (sortedPrices prices) (|cp| * 0.003)
            ((sortedPrices prices).indexOf (prices.getD i 0))) :=
      fun h => hni ((dbNoise_iff_runs prices _ heps i hi).mpr h)
    have hrunsj : ¬ (runStart (sortedPrices prices) (|cp| * 0.003)
          ((sortedPrices prices).indexOf (prices.getD j 0))
        = runEnd (sortedPrices prices) (|cp| * 0.003)
            ((sortedPrices prices).indexOf (prices.getD j 0))) :=
      fun h => hnj ((dbNoise_iff_runs prices _ heps j hj).mpr h)
    have hstarts : runStart (sortedPrices prices) (|cp| * 0.003)
          ((sortedPrices prices).indexOf (prices.getD i 0))
        = runStart (sortedPrices prices) (|cp| * 0.003)
            ((sortedPrices prices).indexOf (prices.getD j 0)) := by
      rcases le_total ((sortedPrices prices).indexOf (prices.getD i 0))
          ((sortedPrices prices).indexOf (prices.getD j 0)) with hle | hle
      · rw [gapFreeBetween, Nat.min_eq_left hle, Nat.max_eq_right hle] at hgfb
        exact (runStart_eq_of_gapFree (sortedPrices prices) (|cp| * 0.003) _ _ hle hgfb).symm
      · rw [gapFreeBetween, Nat.min_eq_right hle, Nat.max_eq_left hle] at hgfb
        exact runStart_eq_of_gapFree (sortedPrices prices) (|cp| * 0.003) _ _ hle hgfb
    rw [cluster_label_at prices cp hi, cluster_label_at prices cp hj,
      if_neg hrunsi, if_neg hrunsj]
    refine ⟨by exact_mod_cast hstarts, fun hc => ?_⟩
    have h0 : (0 : ℤ) ≤ (runStart (sortedPrices prices) (|cp| * 0.003)
        ((sortedPrices prices).indexOf (prices.getD i 0)) : ℤ) :=
      Int.natCast_nonneg _
    rw [hc] at h0
    norm_num at h0

theorem dbscan_gap_grouping_equiv_witness :
    (0 : ℕ) < ([100, 100.2, 105, 200] : List ℚ).length
      ∧ (1 : ℕ) < ([100, 100.2, 105, 200] : List ℚ).length
      ∧ (((cluster_prices_dbscan [100, 100.2, 105, 200] 100).getD 0 0 = -1
            ↔ dbNoise [100, 100.2, 105, 200] (|(100 : ℚ)| * 0.003) 0)
          ∧ ((cluster_prices_dbscan [100, 100.2, 105, 200] 100).getD 0 0
                  = (cluster_prices_dbscan [100, 100.2, 105, 200] 100).getD 1 0
                ∧ (cluster_prices_dbscan [100, 100.2, 105, 200] 100).getD 0 0 ≠ -1
              ↔ dbReach [100, 100.2, 105, 200] (|(100 : ℚ)| * 0.003) 0 1
                  ∧ ¬ dbNoise [100, 100.2, 105, 200] (|(100 : ℚ)| * 0.003) 0
                  ∧ ¬ dbNoise [100, 100.2, 105, 200] (|(100 : ℚ)| * 0.003) 1)) :=
  ⟨by decide, by decide,
    dbscan_gap_grouping_equiv [100, 100.2, 105, 200] 100 0 1 (by decide) (by decide)⟩
